import Mathlib

/-!
Verification development for the overlay fund-portfolio pipeline.

The source of the pipeline lives in `src/modules/analytics.py` and
`src/overlay.py`.  The repository carries two near-identical copies of the
per-portfolio alignment routine `align_time_series_data` (one in
`modules/analytics.py`, one in `overlay.py`); both are embedded below as
`alignAnalytics` and `alignOverlay` since they differ in their rebasing
behaviour.  Timestamps are modelled as integers (day numbers); finite float
values are modelled as rationals; a pandas `NaN` cell is modelled as `none`
of `Option ℚ`.  Transcendental float operations (`**` and `sqrt`, which have
no exact rational counterpart) are abstracted by a `FloatOps` record; every
theorem below holds for all interpretations of those operations.
-/

namespace Overlay

/-- listMin: `df.index.min()` of a pandas frame; the empty case is
unreachable at every call site (frames are checked non-empty first). -/
def listMin (l : List ℤ) : ℤ :=
  match l with
  | [] => 0
  | x :: xs => xs.foldl min x

/-- listMax: `df.index.max()` of a pandas frame; empty case unreachable. -/
def listMax (l : List ℤ) : ℤ :=
  match l with
  | [] => 0
  | x :: xs => xs.foldl max x

/-- RFund: one fund inside a portfolio, as handed to
`align_time_series_data`: a time-indexed frame (the single value column is
keyed by the fund id, which is irrelevant to the semantics) plus the fund's
share percentage.  Values are finite per the FundSeries invariant. -/
structure RFund where
  df : List (ℤ × ℚ)
  share : ℚ
deriving DecidableEq, Repr

/-- TimeStats: the `time_stats` dictionary returned by
`align_time_series_data`. -/
structure TimeStats where
  aligned : Bool
  latest_start : ℤ
  earliest_end : ℤ
  original_count : ℕ
  aligned_count : ℕ
deriving DecidableEq, Repr

/-- rebaseStep: one iteration of the normalization loop of
`modules/analytics.py` (`first_value = df[fund_id].iloc[0]; if first_value
!= 0: ... else skip`).  The outer `none` models the `IndexError` that
`iloc[0]` raises on an empty frame; the inner `none` models the defined
skip of a zero-base fund. -/
def rebaseStep (f : RFund) : Option (Option RFund) :=
  match f.df with
  | [] => none
  | (_, v) :: _ =>
    if v ≠ 0 then
      some (some ⟨f.df.map (fun e => (e.1, e.2 / v)), f.share⟩)
    else
      some none

/-- rebaseAll: the whole normalization loop of `modules/analytics.py`
(lines 84-104 and 121-141): funds are rebased in order, zero-base funds are
skipped, and an empty frame aborts with an exception (`none`). -/
def rebaseAll : List RFund → Option (List RFund)
  | [] => some []
  | f :: fs =>
    match rebaseStep f with
    | none => none
    | some none => rebaseAll fs
    | some (some g) => (rebaseAll fs).map (fun r => g :: r)

/-- timeInfo: the `time_info` list of `align_time_series_data`: the
`(start_time, end_time)` pair of every non-empty frame. -/
def timeInfo (fund_dfs : List RFund) : List (ℤ × ℤ) :=
  fund_dfs.filterMap (fun f =>
    if f.df.isEmpty then none
    else some (listMin (f.df.map Prod.fst), listMax (f.df.map Prod.fst)))

/-- latestStart: `latest_start = max(info.start_time for info in
time_info)`. -/
def latestStart (fund_dfs : List RFund) : ℤ :=
  listMax ((timeInfo fund_dfs).map Prod.fst)

/-- earliestEnd: `earliest_end = min(info.end_time for info in
time_info)`. -/
def earliestEnd (fund_dfs : List RFund) : ℤ :=
  listMin ((timeInfo fund_dfs).map Prod.snd)

/-- needsAlignment: `any(info.start_time < latest_start for info in
time_info)`. -/
def needsAlignment (fund_dfs : List RFund) : Bool :=
  (timeInfo fund_dfs).any (fun i => decide (i.1 < latestStart fund_dfs))

/-- truncFund: one iteration of the truncation loop shared by both copies
of `align_time_series_data`: skip an empty frame, truncate to the latest
start, drop the fund when the truncation is empty. -/
def truncFund (L : ℤ) (f : RFund) : Option RFund :=
  if f.df.isEmpty then none
  else
    let adf := f.df.filter (fun e => decide (L ≤ e.1))
    if adf.isEmpty then none else some ⟨adf, f.share⟩

/-- alignTrunc: the whole truncation loop (`aligned_fund_dfs`). -/
def alignTrunc (L : ℤ) (fund_dfs : List RFund) : List RFund :=
  fund_dfs.filterMap (truncFund L)

/-- alignAnalytics: `align_time_series_data` of `src/modules/analytics.py`
(lines 21-150).  Truncates every fund to the latest start when some fund
starts earlier, drops funds whose truncation is empty, then always rebases
each surviving fund by its first retained value (skipping zero-base
funds).  The outer `Option` models the `IndexError` raised when the no-op
branch normalizes an empty frame. -/
def alignAnalytics (fund_dfs : List RFund) :
    Option (List RFund × Option TimeStats) :=
  if fund_dfs.isEmpty then some (fund_dfs, none)
  else if (timeInfo fund_dfs).isEmpty then some (fund_dfs, none)
  else if needsAlignment fund_dfs then
    (rebaseAll (alignTrunc (latestStart fund_dfs) fund_dfs)).map
      (fun normalized =>
        (normalized,
         some ⟨true, latestStart fund_dfs, earliestEnd fund_dfs,
               fund_dfs.length, normalized.length⟩))
  else
    (rebaseAll fund_dfs).map (fun normalized =>
      (normalized,
       some ⟨false, latestStart fund_dfs, earliestEnd fund_dfs,
             fund_dfs.length, normalized.length⟩))

/-- truncRebaseFund: one iteration of the aligned-branch loop of
`align_time_series_data` in `src/overlay.py` (lines 284-299): truncate,
drop an empty truncation, and rebase only when the first retained value is
non-zero — a zero-base fund is appended with its original values. -/
def truncRebaseFund (L : ℤ) (f : RFund) : Option RFund :=
  if f.df.isEmpty then none
  else
    let adf := f.df.filter (fun e => decide (L ≤ e.1))
    if adf.isEmpty then none
    else
      let fv := (adf.headD (0, 0)).2
      let adf2 := if fv ≠ 0 then adf.map (fun e => (e.1, e.2 / fv)) else adf
      some ⟨adf2, f.share⟩

/-- alignOverlay: `align_time_series_data` of `src/overlay.py` (lines
241-329).  Same truncation as the analytics copy, but rebasing happens
only in the aligned branch and only for non-zero first values; the no-op
branch returns the input funds unchanged. -/
def alignOverlay (fund_dfs : List RFund) : List RFund × Option TimeStats :=
  if fund_dfs.isEmpty then (fund_dfs, none)
  else if (timeInfo fund_dfs).isEmpty then (fund_dfs, none)
  else if needsAlignment fund_dfs then
    let aligned := fund_dfs.filterMap (truncRebaseFund (latestStart fund_dfs))
    (aligned,
     some ⟨true, latestStart fund_dfs, earliestEnd fund_dfs,
           fund_dfs.length, aligned.length⟩)
  else
    (fund_dfs,
     some ⟨false, latestStart fund_dfs, earliestEnd fund_dfs,
           fund_dfs.length, fund_dfs.length⟩)

/-- OFund: a fund frame as consumed by the aggregation code.  Cells are
`Option ℚ`: `none` models a pandas `NaN` cell (the CSV loading paths of
`overlay.py` can hand frames with NaN values to the aggregator). -/
structure OFund where
  df : List (ℤ × Option ℚ)
  share : ℚ
deriving DecidableEq, Repr

/-- insSorted: insert an integer into a sorted, duplicate-free list. -/
def insSorted (x : ℤ) : List ℤ → List ℤ
  | [] => [x]
  | y :: ys =>
    if x < y then x :: y :: ys
    else if x = y then y :: ys
    else y :: insSorted x ys

/-- sortDedup: the sorted union index produced by
`pd.concat(..., axis=1)` followed by `sort_index()`. -/
def sortDedup (l : List ℤ) : List ℤ := l.foldr insSorted []

/-- allTs: every timestamp of every fund frame (the concatenated index,
before sorting and deduplication). -/
def allTs (funds : List OFund) : List ℤ :=
  funds.flatMap (fun f => f.df.map Prod.fst)

/-- lastDefinedLe: the last non-NaN cell at or before `t` — the value a
column holds at `t` after `ffill` (frames are ascending by time). -/
def lastDefinedLe (t : ℤ) (df : List (ℤ × Option ℚ)) : Option ℚ :=
  (df.filter (fun e => decide (e.1 ≤ t))).foldl
    (fun acc e => match e.2 with | some v => some v | none => acc) none

/-- firstDefinedGt: the first non-NaN cell strictly after `t` — what
`bfill` writes into a position still empty after `ffill`. -/
def firstDefinedGt (t : ℤ) (df : List (ℤ × Option ℚ)) : Option ℚ :=
  (df.filter (fun e => decide (t < e.1))).findSome? (fun e => e.2)

/-- filledAt: the cell of a fund's column at union timestamp `t` after
`combined_df.ffill(inplace=True)` then `combined_df.bfill(inplace=True)`;
`none` only when the column holds no defined value at all. -/
def filledAt (t : ℤ) (df : List (ℤ × Option ℚ)) : Option ℚ :=
  match lastDefinedLe t df with
  | some v => some v
  | none => firstDefinedGt t df

/-- allNull: `combined_df[fund_id].isnull().all()` — the fund column
contributes no defined value (post-fill all-NaN iff pre-fill all-NaN). -/
def allNull (df : List (ℤ × Option ℚ)) : Bool :=
  df.all (fun e => e.2.isNone)

/-- navAt: one row of the weighted sum of `update_graph_and_feedback`
(`overlay.py` lines 1595-1599): starting from the zero-initialized series,
each fund whose column is not all-null adds `value * share / 100`. -/
def navAt (funds : List OFund) (t : ℤ) : ℚ :=
  funds.foldl
    (fun acc f =>
      if allNull f.df then acc
      else acc + ((filledAt t f.df).getD 0) * f.share / 100)
    0

/-- aggregateNav: the aggregation step of `update_graph_and_feedback`
(`overlay.py` lines 1590-1600) and of `generate_normalized_chart` (lines
1201-1214): concatenate the fund columns over the sorted union index,
forward- then backward-fill, and sum the share-weighted columns.  `none`
models the guarded-out case (`if aligned_fund_dfs:` false, or
`nav.empty`); the `nav.notna().any()` guard of the source is always
satisfied here because a filled column of a non-all-null fund is total and
the accumulator starts at the rational 0. -/
def aggregateNav (funds : List OFund) : Option (List (ℤ × ℚ)) :=
  if funds.isEmpty then none
  else
    let idx := sortDedup (allTs funds)
    let nav := idx.map (fun t => (t, navAt funds t))
    if nav.isEmpty then none else some nav

/-- portfolioStart: `combined_df.index.min()` over one portfolio's raw
fund frames (`generate_normalized_chart`, line 1158).  Note this is the
earliest timestamp of any fund, with no per-fund alignment applied. -/
def portfolioStart (funds : List OFund) : ℤ := listMin (allTs funds)

/-- glsStep: one iteration of the global-start scan of
`generate_normalized_chart` lines 1154-1162: a portfolio with a non-empty
fund list replaces the running global start when its own raw start is
later (or when no start has been seen yet). -/
def glsStep (acc : Option ℤ) (p : List OFund) : Option ℤ :=
  if p.isEmpty then acc
  else
    match acc with
    | none => some (portfolioStart p)
    | some g =>
      if g < portfolioStart p then some (portfolioStart p) else some g

/-- globalLatestStart: the whole global-start scan over all portfolios. -/
def globalLatestStart (ps : List (List OFund)) : Option ℤ :=
  ps.foldl glsStep none

/-- globalNormFund: one iteration of the truncate-and-rebase loop of
`generate_normalized_chart` (lines 1183-1199).  The fund is truncated to
the global start; an empty truncation is dropped; otherwise, when the
first retained cell is a non-zero number the fund is rebased by it, when
it is zero the fund is kept with its original values, and when it is NaN
the division by NaN turns the whole column into NaN. -/
def globalNormFund (g : ℤ) (f : OFund) : Option OFund :=
  let tdf := f.df.filter (fun e => decide (g ≤ e.1))
  if tdf.isEmpty then none
  else
    match (tdf.headD (0, none)).2 with
    | some v =>
      if v ≠ 0 then
        some ⟨tdf.map (fun e => (e.1, e.2.map (· / v))), f.share⟩
      else some ⟨tdf, f.share⟩
    | none => some ⟨tdf.map (fun e => (e.1, (none : Option ℚ))), f.share⟩

/-- globalNormalize: the whole truncate-and-rebase loop over one
portfolio's funds in the cross-portfolio path. -/
def globalNormalize (g : ℤ) (funds : List OFund) : List OFund :=
  funds.filterMap (globalNormFund g)

/-- FloatOps: interpretations of the two float operations of
`calculate_investment_metrics` that have no exact rational counterpart
(`x ** y` and the square root inside `std`).  All metrics theorems hold
for every interpretation. -/
structure FloatOps where
  sqrt : ℚ → ℚ
  rpow : ℚ → ℚ → ℚ

/-- dropna: `nav_series.dropna()` — keep the defined observations. -/
def dropna (nav : List (ℤ × Option ℚ)) : List (ℤ × ℚ) :=
  nav.filterMap (fun e => e.2.map (fun v => (e.1, v)))

/-- pctChange: `nav_series.pct_change().dropna()` on a clean series:
one-period returns between consecutive retained points.  A `0/0` step is a
NaN in pandas and is dropped (the `x/0` step with `x ≠ 0` is an infinity
in pandas; it is out of scope here since the metrics contract expects
positive values). -/
def pctChange (l : List (ℤ × ℚ)) : List ℚ :=
  (l.zip l.tail).filterMap (fun p =>
    if p.1.2 = 0 ∧ p.2.2 = 0 then none else some (p.2.2 / p.1.2 - 1))

/-- cummaxRatioAux: running-maximum ratios with accumulator `m`. -/
def cummaxRatioAux (m : ℚ) : List ℚ → List ℚ
  | [] => []
  | v :: vs => (v / max m v) :: cummaxRatioAux (max m v) vs

/-- cummaxRatios: `nav_series / nav_series.cummax()` as a list of per-row
ratios. -/
def cummaxRatios (l : List ℚ) : List ℚ :=
  match l with
  | [] => []
  | v :: _ => cummaxRatioAux v l

/-- listMinQ: `series.min()` of a non-empty rational series. -/
def listMinQ (l : List ℚ) : ℚ :=
  match l with
  | [] => 0
  | x :: xs => xs.foldl min x

/-- sampleVar: the sample variance (`ddof=1`, pandas default) of the
return series; only evaluated on series of length at least 2. -/
def sampleVar (l : List ℚ) : ℚ :=
  let n : ℚ := l.length
  let m := l.foldl (· + ·) 0 / n
  (l.foldl (fun a x => a + (x - m) ^ 2) 0) / (n - 1)

/-- insSortedQ: insertion into a sorted rational list (duplicates kept),
used by the quantile computation. -/
def insSortedQ (x : ℚ) : List ℚ → List ℚ
  | [] => [x]
  | y :: ys => if x ≤ y then x :: y :: ys else y :: insSortedQ x ys

/-- sortQ: ascending sort of the return series. -/
def sortQ (l : List ℚ) : List ℚ := l.foldr insSortedQ []

/-- quantile05: `returns.quantile(0.05)` with pandas' default linear
interpolation: position `0.05 * (n - 1)` in the sorted series. -/
def quantile05 (l : List ℚ) : ℚ :=
  let s := sortQ l
  let n := s.length
  if n = 0 then 0
  else
    let pos : ℚ := ((n : ℚ) - 1) / 20
    let i : ℕ := (⌊pos⌋).toNat
    let frac : ℚ := pos - (⌊pos⌋ : ℚ)
    let lo := s.getD i 0
    let hi := s.getD (i + 1) lo
    lo + frac * (hi - lo)

/-- maxConsecDown: the `nav_changes` loop of
`calculate_investment_metrics`: longest run of strictly negative
consecutive NAV differences (the leading NaN difference is skipped by the
`continue`). -/
def maxConsecDown (vs : List ℚ) : ℕ :=
  ((vs.zip vs.tail).foldl
    (fun st p =>
      if p.2 - p.1 < 0 then (st.1 + 1, max st.2 (st.1 + 1)) else (0, st.2))
    ((0, 0) : ℕ × ℕ)).2

/-- bround: Python's `round` to an integer — round half to even. -/
def bround (y : ℚ) : ℤ :=
  let f := ⌊y⌋
  let r := y - (f : ℚ)
  if r < 1 / 2 then f
  else if 1 / 2 < r then f + 1
  else if 2 ∣ f then f else f + 1

/-- roundTo: Python's `round(x, n)` on rationals. -/
def roundTo (n : ℕ) (x : ℚ) : ℚ := (bround (x * 10 ^ n) : ℚ) / 10 ^ n

/-- Metrics: the metrics dictionary built by
`calculate_investment_metrics`.  Dates are the day numbers that
`strftime` formats; `volatility` is `none` when pandas would report NaN
(a single return has no sample deviation).  The source's `sharpe_ratio`
and `calmar_ratio` keys are named `sharpe` and `calmar` here. -/
structure Metrics where
  portfolio_name : String
  start_date : ℤ
  end_date : ℤ
  days : ℤ
  total_return : ℚ
  annualized_return : ℚ
  volatility : Option ℚ
  max_drawdown : ℚ
  sharpe : ℚ
  calmar : ℚ
  win_rate : ℚ
  max_consecutive_down : ℕ
  var_95 : ℚ
  final_nav : ℚ
deriving DecidableEq, Repr

/-- calcMetrics: `calculate_investment_metrics` of
`src/modules/analytics.py` lines 153-280 (the copy in `overlay.py` lines
331-458 is line-for-line the same computation).  `none` is the Python
`None` returned on insufficient data. -/
def calcMetrics (ops : FloatOps) (nav : List (ℤ × Option ℚ))
    (portfolio_name : String) : Option Metrics :=
  if nav.length < 2 then none
  else
    let clean := dropna nav
    if clean.length < 2 then none
    else
      let rets := pctChange clean
      if rets.isEmpty then none
      else
        let ts := clean.map Prod.fst
        let vs := clean.map Prod.snd
        let start_date := ts.headD 0
        let end_date := ts.getLastD 0
        let days := end_date - start_date
        let years : ℚ := (days : ℚ) * 4 / 1461
        let total_return := (vs.getLastD 0 / vs.headD 0 - 1) * 100
        let annualized_return :=
          if 0 < years then
            (ops.rpow (vs.getLastD 0 / vs.headD 0) (1 / years) - 1) * 100
          else 0
        let volatility : Option ℚ :=
          if rets.length < 2 then none
          else some (ops.sqrt (sampleVar rets) * ops.sqrt 252 * 100)
        let mddRaw := (listMinQ (cummaxRatios vs) - 1) * 100
        let sharpe :=
          match volatility with
          | some v =>
            if 0 < v then (annualized_return / 100 - 3 / 100) / (v / 100)
            else 0
          | none => 0
        let calmar :=
          if mddRaw < 0 then (annualized_return / 100) / |mddRaw / 100|
          else 0
        let win_rate :=
          ((rets.countP (fun r => decide (0 < r)) : ℚ) / rets.length) * 100
        some
          { portfolio_name := portfolio_name
            start_date := start_date
            end_date := end_date
            days := days
            total_return := roundTo 2 total_return
            annualized_return := roundTo 2 annualized_return
            volatility := volatility.map (roundTo 2)
            max_drawdown := roundTo 2 mddRaw
            sharpe := roundTo 3 sharpe
            calmar := roundTo 3 calmar
            win_rate := roundTo 2 win_rate
            max_consecutive_down := maxConsecDown vs
            var_95 := roundTo 2 (quantile05 rets * 100)
            final_nav := roundTo 4 (vs.getLastD 0) }

/-! Helper lemmas about the list-level building blocks. -/

/-- firstTs: the first timestamp of a fund frame (frames are ascending, so
this is also `df.index.min()`). -/
def firstTs (f : RFund) : ℤ := (f.df.map Prod.fst).headD 0

theorem foldl_max_le {l : List ℤ} {x b : ℤ} (hx : x ≤ b)
    (h : ∀ y ∈ l, y ≤ b) : l.foldl max x ≤ b := by
  induction l generalizing x with
  | nil => simpa using hx
  | cons y ys ih =>
    simp only [List.foldl_cons]
    exact ih (max_le hx (h y (by simp))) (fun z hz => h z (by simp [hz]))

theorem le_foldl_max {l : List ℤ} (x : ℤ) : x ≤ l.foldl max x := by
  induction l generalizing x with
  | nil => simp
  | cons y ys ih => exact le_trans (le_max_left x y) (ih (max x y))

theorem foldl_max_mem {l : List ℤ} (x : ℤ) :
    l.foldl max x = x ∨ l.foldl max x ∈ l := by
  induction l generalizing x with
  | nil => simp
  | cons y ys ih =>
    simp only [List.foldl_cons]
    rcases ih (max x y) with h | h
    · rcases max_choice x y with hm | hm
      · left; rw [h, hm]
      · right; rw [h, hm]; simp
    · right; simp [h]

theorem foldl_max_upper {l : List ℤ} {a : ℤ} (ha : a ∈ l) (x : ℤ) :
    a ≤ l.foldl max x := by
  induction l generalizing x with
  | nil => cases ha
  | cons y ys ih =>
    simp only [List.foldl_cons]
    rcases List.mem_cons.mp ha with rfl | ha
    · exact le_trans (le_max_right x a) (le_foldl_max _)
    · exact ih ha _

theorem listMax_spec {l : List ℤ} (h : l ≠ []) :
    listMax l ∈ l ∧ ∀ x ∈ l, x ≤ listMax l := by
  match l with
  | x :: xs =>
    constructor
    · rcases foldl_max_mem (l := xs) x with h' | h'
      · simp [listMax, h']
      · simp [listMax, h']
    · intro a ha
      rcases List.mem_cons.mp ha with rfl | ha
      · exact le_foldl_max a
      · exact foldl_max_upper ha x

theorem foldl_min_le_init {α : Type} [LinearOrder α] {l : List α} (x : α) :
    l.foldl min x ≤ x := by
  induction l generalizing x with
  | nil => simp
  | cons y ys ih => exact le_trans (ih (min x y)) (min_le_left x y)

theorem foldl_min_eq_of_le {α : Type} [LinearOrder α] {l : List α} {x : α}
    (h : ∀ y ∈ l, x ≤ y) : l.foldl min x = x := by
  induction l generalizing x with
  | nil => simp
  | cons y ys ih =>
    simp only [List.foldl_cons, min_eq_left (h y (by simp))]
    exact ih (fun z hz => h z (by simp [hz]))

theorem foldl_min_mem {l : List ℤ} (x : ℤ) :
    l.foldl min x = x ∨ l.foldl min x ∈ l := by
  induction l generalizing x with
  | nil => simp
  | cons y ys ih =>
    simp only [List.foldl_cons]
    rcases ih (min x y) with h | h
    · rcases min_choice x y with hm | hm
      · left; rw [h, hm]
      · right; rw [h, hm]; simp
    · right; simp [h]

theorem foldl_min_lower {l : List ℤ} {a : ℤ} (ha : a ∈ l) (x : ℤ) :
    l.foldl min x ≤ a := by
  induction l generalizing x with
  | nil => cases ha
  | cons y ys ih =>
    simp only [List.foldl_cons]
    rcases List.mem_cons.mp ha with rfl | ha
    · exact le_trans (foldl_min_le_init _) (min_le_right x a)
    · exact ih ha _

theorem listMin_spec {l : List ℤ} (h : l ≠ []) :
    listMin l ∈ l ∧ ∀ x ∈ l, listMin l ≤ x := by
  match l with
  | x :: xs =>
    constructor
    · rcases foldl_min_mem (l := xs) x with h' | h'
      · simp [listMin, h']
      · simp [listMin, h']
    · intro a ha
      rcases List.mem_cons.mp ha with rfl | ha
      · exact foldl_min_le_init a
      · exact foldl_min_lower ha x

theorem listMin_sorted_head (x : ℤ) (xs : List ℤ)
    (hs : (x :: xs).Pairwise (· < ·)) : listMin (x :: xs) = x := by
  rcases List.pairwise_cons.mp hs with ⟨hx, _⟩
  simpa [listMin] using foldl_min_eq_of_le (fun y hy => le_of_lt (hx y hy))

theorem insSorted_ne_nil (x : ℤ) (l : List ℤ) : insSorted x l ≠ [] := by
  match l with
  | [] => simp [insSorted]
  | y :: ys =>
    simp only [insSorted]
    split <;> simp
    split <;> simp

theorem mem_insSorted {a x : ℤ} {l : List ℤ} :
    a ∈ insSorted x l ↔ a = x ∨ a ∈ l := by
  induction l with
  | nil => simp [insSorted]
  | cons y ys ih =>
    simp only [insSorted]
    split
    · simp [List.mem_cons]
    · split
      · next heq => subst heq; simp [List.mem_cons]
      · simp [List.mem_cons, ih]; tauto

theorem head_insSorted (x y : ℤ) (ys : List ℤ) :
    (insSorted x (y :: ys)).head? = some (min x y) := by
  simp only [insSorted]
  rcases lt_trichotomy x y with h | h | h
  · rw [if_pos h]; simp [min_eq_left (le_of_lt h)]
  · subst h; simp
  · rw [if_neg (not_lt.mpr (le_of_lt h)), if_neg (ne_of_gt h)]
    simp [min_eq_right (le_of_lt h)]

theorem sortDedup_head_min {l : List ℤ} (h : l ≠ []) :
    ∃ m, (sortDedup l).head? = some m ∧ m ∈ l ∧ ∀ a ∈ l, m ≤ a := by
  induction l with
  | nil => exact absurd rfl h
  | cons x xs ih =>
    by_cases hxs : xs = []
    · subst hxs
      exact ⟨x, by simp [sortDedup, insSorted], by simp, by simp⟩
    · obtain ⟨m, hm, hmem, hle⟩ := ih hxs
      have hs : sortDedup (x :: xs) = insSorted x (sortDedup xs) := rfl
      have hnil : sortDedup xs ≠ [] := fun hnil => by simp [hnil] at hm
      obtain ⟨z, zs, hz⟩ := List.exists_cons_of_ne_nil hnil
      refine ⟨min x m, ?_, ?_, ?_⟩
      · rw [hs, hz]
        have hzm : z = m := by
          rw [hz] at hm
          simpa using hm
        subst hzm
        exact head_insSorted x z zs
      · rcases min_choice x m with hc | hc <;> rw [hc]
        · simp
        · simp [hmem]
      · intro a ha
        rcases List.mem_cons.mp ha with rfl | ha
        · exact min_le_left a m
        · exact le_trans (min_le_right x m) (hle a ha)

/-! Lemmas about the rebasing loop. -/

theorem rebaseStep_inv {f g : RFund} (h : rebaseStep f = some (some g)) :
    ∃ t v rest, f.df = (t, v) :: rest ∧ v ≠ 0 ∧
      g.df = f.df.map (fun e => (e.1, e.2 / v)) ∧ g.share = f.share := by
  match hf : f.df with
  | [] => simp [rebaseStep, hf] at h
  | (t, v) :: rest =>
    simp only [rebaseStep, hf] at h
    by_cases hv : v ≠ 0
    · rw [if_pos hv] at h
      refine ⟨t, v, rest, rfl, hv, ?_, ?_⟩
      · have := (Option.some_inj.mp (Option.some_inj.mp h)).symm
        rw [this]
      · have := (Option.some_inj.mp (Option.some_inj.mp h)).symm
        rw [this]
    · rw [if_neg hv] at h
      exact absurd (Option.some_inj.mp h) (by simp)

theorem rebaseAll_some {l : List RFund} (h : ∀ f ∈ l, f.df ≠ []) :
    ∃ r, rebaseAll l = some r := by
  induction l with
  | nil => exact ⟨[], rfl⟩
  | cons f fs ih =>
    obtain ⟨r, hr⟩ := ih (fun g hg => h g (by simp [hg]))
    have hf := h f (by simp)
    match hdf : f.df with
    | [] => exact absurd hdf hf
    | (t, v) :: rest =>
      by_cases hv : v ≠ 0
      · exact ⟨⟨((t, v) :: rest).map (fun e => (e.1, e.2 / v)), f.share⟩ :: r,
          by simp [rebaseAll, rebaseStep, hdf, if_pos hv, hr]⟩
      · exact ⟨r, by simp [rebaseAll, rebaseStep, hdf, if_neg hv, hr]⟩

theorem rebaseAll_mem {l r : List RFund} (h : rebaseAll l = some r) :
    ∀ g ∈ r, ∃ f ∈ l, rebaseStep f = some (some g) := by
  induction l generalizing r with
  | nil =>
    simp only [rebaseAll] at h
    rw [← Option.some_inj.mp h]
    intro g hg; cases hg
  | cons f fs ih =>
    intro g hg
    simp only [rebaseAll] at h
    match hstep : rebaseStep f with
    | none => rw [hstep] at h; cases h
    | some none =>
      rw [hstep] at h
      obtain ⟨f', hf', hs⟩ := ih h g hg
      exact ⟨f', by simp [hf'], hs⟩
    | some (some g') =>
      rw [hstep] at h
      match hr : rebaseAll fs with
      | none => rw [hr] at h; cases h
      | some r' =>
        rw [hr] at h
        have : g' :: r' = r := by simpa using h
        rw [← this] at hg
        rcases List.mem_cons.mp hg with rfl | hg
        · exact ⟨f, by simp, hstep⟩
        · obtain ⟨f', hf', hs⟩ := ih hr g hg
          exact ⟨f', by simp [hf'], hs⟩

/-- rebased_head_one: a fund accepted by the rebase step has first
retained value exactly 1 after normalization. -/
theorem rebased_head_one {f g : RFund} (h : rebaseStep f = some (some g)) :
    ∀ t v, g.df.head? = some (t, v) → v = 1 := by
  obtain ⟨t0, v0, rest, hdf, hv0, hgdf, _⟩ := rebaseStep_inv h
  intro t v hv
  rw [hgdf, hdf] at hv
  simp only [List.map_cons, List.head?_cons, Option.some_inj] at hv
  have : v = v0 / v0 := (congrArg Prod.snd hv).symm
  rw [this, div_self hv0]

/-! Lemmas about the forward/backward fill and the weighted sum. -/

theorem filledAt_head {df : List (ℤ × Option ℚ)} {t0 : ℤ} {v : ℚ}
    (hs : df.Pairwise (fun a b => a.1 < b.1))
    (hh : df.head? = some (t0, some v)) :
    filledAt t0 df = some v := by
  match df with
  | [] => cases hh
  | e :: rest =>
    have he : e = (t0, some v) := by simpa using hh
    subst he
    rcases List.pairwise_cons.mp hs with ⟨hgt, _⟩
    have hrest : rest.filter (fun e => decide (e.1 ≤ t0)) = [] := by
      rw [List.filter_eq_nil_iff]
      intro e' he'
      simpa using not_le.mpr (hgt e' he')
    simp [filledAt, lastDefinedLe, List.filter_cons, hrest]

theorem allNull_head_false {df : List (ℤ × Option ℚ)} {t0 : ℤ} {v : ℚ}
    (hh : df.head? = some (t0, some v)) : allNull df = false := by
  match df with
  | [] => cases hh
  | e :: rest =>
    have he : e = (t0, some v) := by simpa using hh
    subst he
    simp [allNull]

theorem navAt_foldl_one {funds : List OFund} {t : ℤ}
    (h : ∀ f ∈ funds, allNull f.df = false ∧ filledAt t f.df = some 1) :
    ∀ a : ℚ,
      funds.foldl
        (fun acc f =>
          if allNull f.df then acc
          else acc + ((filledAt t f.df).getD 0) * f.share / 100)
        a = a + (funds.map OFund.share).sum / 100 := by
  induction funds with
  | nil => intro a; simp
  | cons f fs ih =>
    intro a
    obtain ⟨hn, hf⟩ := h f (by simp)
    simp only [List.foldl_cons, hn, Bool.false_eq_true, if_false, hf,
      Option.getD_some]
    rw [ih (fun g hg => h g (by simp [hg]))]
    simp only [List.map_cons, List.sum_cons]
    ring

theorem navAt_one {funds : List OFund} {t : ℤ}
    (h : ∀ f ∈ funds, allNull f.df = false ∧ filledAt t f.df = some 1) :
    navAt funds t = (funds.map OFund.share).sum / 100 := by
  simpa using navAt_foldl_one h 0

theorem navAt_zero {funds : List OFund} {t : ℤ}
    (h : ∀ f ∈ funds, allNull f.df = true) : navAt funds t = 0 := by
  have : ∀ a : ℚ,
      funds.foldl
        (fun acc f =>
          if allNull f.df then acc
          else acc + ((filledAt t f.df).getD 0) * f.share / 100)
        a = a := by
    induction funds with
    | nil => intro a; rfl
    | cons f fs ih =>
      intro a
      simp only [List.foldl_cons, h f (by simp), if_true]
      exact ih (fun g hg => h g (by simp [hg])) a
  simpa [navAt] using this 0

/-! Lemmas about `timeInfo` and the truncation. -/

theorem timeInfo_map_eq {l : List RFund} (h : ∀ f ∈ l, f.df ≠ []) :
    timeInfo l =
      l.map (fun f =>
        (listMin (f.df.map Prod.fst), listMax (f.df.map Prod.fst))) := by
  induction l with
  | nil => rfl
  | cons f fs ih =>
    have hf : f.df.isEmpty = false := by
      simpa [List.isEmpty_iff] using h f (by simp)
    simp only [timeInfo, List.filterMap_cons, hf, Bool.false_eq_true,
      if_false, List.map_cons]
    exact congrArg _ (ih (fun g hg => h g (by simp [hg])))

theorem listMin_firstTs {f : RFund} (hne : f.df ≠ [])
    (hs : f.df.Pairwise (fun a b => a.1 < b.1)) :
    listMin (f.df.map Prod.fst) = firstTs f := by
  match hdf : f.df with
  | [] => exact absurd hdf hne
  | e :: rest =>
    have hsorted : (f.df.map Prod.fst).Pairwise (· < ·) :=
      List.pairwise_map.mpr hs
    rw [hdf] at hsorted
    have h1 := listMin_sorted_head e.1 (rest.map Prod.fst) hsorted
    simpa [firstTs, hdf] using h1

theorem roundTo_nonpos {n : ℕ} {x : ℚ} (h : x ≤ 0) : roundTo n x ≤ 0 := by
  have hy : x * 10 ^ n ≤ 0 :=
    mul_nonpos_iff.mpr (Or.inr ⟨h, by positivity⟩)
  have hb : bround (x * 10 ^ n) ≤ 0 := by
    set y := x * 10 ^ n with hy'
    simp only [bround]
    have hfle : (⌊y⌋ : ℚ) ≤ y := Int.floor_le y
    split
    · exact_mod_cast le_trans (Int.floor_le_floor hy) (by norm_num)
    · next hlt =>
      have : (⌊y⌋ : ℚ) ≤ y - 1 / 2 := by
        push_neg at hlt
        linarith
      have hfl : (⌊y⌋ : ℚ) ≤ -(1 / 2) := by linarith
      have hneg : (⌊y⌋ : ℚ) < 0 := lt_of_le_of_lt hfl (by norm_num)
      have : ⌊y⌋ < 0 := by exact_mod_cast hneg
      split
      · omega
      · split <;> omega
  have : (bround (x * 10 ^ n) : ℚ) ≤ 0 := by exact_mod_cast hb
  have hpow : (0 : ℚ) < 10 ^ n := by positivity
  simpa [roundTo] using div_nonpos_iff.mpr (Or.inr ⟨this, le_of_lt hpow⟩)

/-! Lemmas about `dropna`. -/

theorem dropna_lift (l : List (ℤ × ℚ)) :
    dropna (l.map (fun e => (e.1, some e.2))) = l := by
  induction l with
  | nil => rfl
  | cons e es ih => simp [dropna, List.filterMap_cons] at ih ⊢; exact ih

theorem mem_dropna {nav : List (ℤ × Option ℚ)} {t : ℤ} {v : ℚ}
    (h : (t, v) ∈ dropna nav) : (t, some v) ∈ nav := by
  simp only [dropna, List.mem_filterMap] at h
  obtain ⟨e, he, hev⟩ := h
  match e with
  | (t', none) => simp at hev
  | (t', some v') =>
    simp only [Option.map_some, Option.some_inj, Prod.mk.injEq] at hev
    obtain ⟨rfl, rfl⟩ := hev
    exact he

/-! Lemmas about the alignment routines' shared structure. -/

theorem timeInfo_fst_eq {l : List RFund} (hnonempty : ∀ f ∈ l, f.df ≠ [])
    (hsorted : ∀ f ∈ l, f.df.Pairwise (fun a b => a.1 < b.1)) :
    (timeInfo l).map Prod.fst = l.map firstTs := by
  rw [timeInfo_map_eq hnonempty, List.map_map]
  exact List.map_congr_left
    (fun f hf => listMin_firstTs (hnonempty f hf) (hsorted f hf))

theorem timeInfo_ne_nil {l : List RFund} (hne : l ≠ [])
    (hnonempty : ∀ f ∈ l, f.df ≠ []) : timeInfo l ≠ [] := by
  rw [timeInfo_map_eq hnonempty]
  simpa using hne

theorem latestStart_ub {l : List RFund} (hne : l ≠ [])
    (hnonempty : ∀ f ∈ l, f.df ≠ [])
    (hsorted : ∀ f ∈ l, f.df.Pairwise (fun a b => a.1 < b.1)) :
    ∀ f ∈ l, firstTs f ≤ latestStart l := by
  intro f hf
  have h := (listMax_spec (l := (timeInfo l).map Prod.fst)
    (by rw [timeInfo_fst_eq hnonempty hsorted]; simpa using hne)).2
  exact h (firstTs f)
    (by rw [timeInfo_fst_eq hnonempty hsorted]; exact List.mem_map_of_mem _ hf)

theorem latestStart_attained {l : List RFund} (hne : l ≠ [])
    (hnonempty : ∀ f ∈ l, f.df ≠ [])
    (hsorted : ∀ f ∈ l, f.df.Pairwise (fun a b => a.1 < b.1)) :
    ∃ f ∈ l, latestStart l = firstTs f := by
  have hL : latestStart l = listMax (l.map firstTs) := by
    rw [latestStart, timeInfo_fst_eq hnonempty hsorted]
  have h := (listMax_spec (l := (timeInfo l).map Prod.fst)
    (by rw [timeInfo_fst_eq hnonempty hsorted]; simpa using hne)).1
  rw [timeInfo_fst_eq hnonempty hsorted] at h
  obtain ⟨f, hf, hfl⟩ := List.mem_map.mp h
  refine ⟨f, hf, ?_⟩
  rw [hL, hfl]

theorem needsAlignment_false_iff {l : List RFund} (hne : l ≠ [])
    (hnonempty : ∀ f ∈ l, f.df ≠ [])
    (hsorted : ∀ f ∈ l, f.df.Pairwise (fun a b => a.1 < b.1)) :
    needsAlignment l = false ↔ ∀ f ∈ l, firstTs f = latestStart l := by
  simp only [needsAlignment, List.any_eq_false]
  constructor
  · intro h f hf
    have hmem : (listMin (f.df.map Prod.fst), listMax (f.df.map Prod.fst)) ∈
        timeInfo l := by
      rw [timeInfo_map_eq hnonempty]
      exact List.mem_map_of_mem _ hf
    have hnl := h _ hmem
    simp only [decide_eq_true_eq] at hnl
    rw [listMin_firstTs (hnonempty f hf) (hsorted f hf)] at hnl
    exact le_antisymm (latestStart_ub hne hnonempty hsorted f hf)
      (not_lt.mp hnl)
  · intro h i hi
    rw [timeInfo_map_eq hnonempty] at hi
    obtain ⟨f, hf, rfl⟩ := List.mem_map.mp hi
    simp only [decide_eq_true_eq, not_lt]
    rw [listMin_firstTs (hnonempty f hf) (hsorted f hf), h f hf]

theorem truncFund_inv {L : ℤ} {f g : RFund} (h : truncFund L f = some g) :
    g.df = f.df.filter (fun e => decide (L ≤ e.1)) ∧ g.df ≠ [] ∧
      g.share = f.share := by
  simp only [truncFund] at h
  split at h
  · cases h
  · split at h
    · cases h
    · next hne =>
      have hg := Option.some_inj.mp h
      rw [← hg]
      exact ⟨rfl, by simpa [List.isEmpty_iff] using hne, rfl⟩

theorem truncRebaseFund_inv {L : ℤ} {f g : RFund}
    (h : truncRebaseFund L f = some g) :
    ∃ adf : List (ℤ × ℚ), adf = f.df.filter (fun e => decide (L ≤ e.1)) ∧
      adf ≠ [] ∧ g.share = f.share ∧
      (((adf.headD (0, 0)).2 ≠ 0 ∧
        g.df = adf.map (fun e => (e.1, e.2 / (adf.headD (0, 0)).2))) ∨
       ((adf.headD (0, 0)).2 = 0 ∧ g.df = adf)) := by
  simp only [truncRebaseFund] at h
  split at h
  · cases h
  · split at h
    · cases h
    · next hne =>
      injection h with h2
      subst h2
      refine ⟨f.df.filter (fun e => decide (L ≤ e.1)), rfl,
        by simpa [List.isEmpty_iff] using hne, rfl, ?_⟩
      by_cases hv : ((f.df.filter (fun e => decide (L ≤ e.1))).headD
          (0, 0)).2 = 0
      · exact Or.inr ⟨hv, by rw [if_neg (not_not_intro hv)]⟩
      · exact Or.inl ⟨hv, by rw [if_pos hv]⟩

theorem rebaseAll_mem_fwd {l r : List RFund} (h : rebaseAll l = some r) :
    ∀ f ∈ l, ∀ g, rebaseStep f = some (some g) → g ∈ r := by
  induction l generalizing r with
  | nil => intro f hf; cases hf
  | cons f0 fs ih =>
    intro f hf g hg
    simp only [rebaseAll] at h
    rcases List.mem_cons.mp hf with rfl | hf
    · rw [hg] at h
      match hr : rebaseAll fs with
      | none => rw [hr] at h; cases h
      | some r' =>
        rw [hr] at h
        have : g :: r' = r := by simpa using h
        rw [← this]
        simp
    · match hstep : rebaseStep f0 with
      | none => rw [hstep] at h; cases h
      | some none =>
        rw [hstep] at h
        exact ih h f hf g hg
      | some (some g') =>
        rw [hstep] at h
        match hr : rebaseAll fs with
        | none => rw [hr] at h; cases h
        | some r' =>
          rw [hr] at h
          have : g' :: r' = r := by simpa using h
          rw [← this]
          exact List.mem_cons_of_mem _ (ih hr f hf g hg)

theorem map_fst_filter_comm (l : List (ℤ × ℚ)) (p : ℤ → Bool) :
    (l.filter (fun e => p e.1)).map Prod.fst = (l.map Prod.fst).filter p := by
  rw [List.filter_map]; rfl

theorem head_filter_pred {l : List ℤ} {p : ℤ → Bool} {t : ℤ}
    (h : (l.filter p).head? = some t) : p t = true :=
  (List.mem_filter.mp (List.mem_of_mem_head? h)).2

theorem firstTs_le_all {f : RFund}
    (hs : f.df.Pairwise (fun a b => a.1 < b.1)) :
    ∀ e ∈ f.df, firstTs f ≤ e.1 := by
  match hdf : f.df with
  | [] => intro e he; cases he
  | e0 :: rest =>
    intro e he
    have hfi : firstTs f = e0.1 := by simp [firstTs, hdf]
    rw [hfi]
    rcases List.mem_cons.mp he with rfl | he
    · exact le_refl _
    · rw [hdf] at hs
      exact le_of_lt ((List.pairwise_cons.mp hs).1 e he)

theorem map_fst_rebased {a g : RFund} {v : ℚ}
    (hgdf : g.df = a.df.map (fun e => (e.1, e.2 / v))) :
    g.df.map Prod.fst = a.df.map Prod.fst := by
  rw [hgdf, List.map_map]
  exact List.map_congr_left (fun e _ => rfl)

/-- alignAnalytics_props: the alignment contract of §4.1, proved for the
`modules/analytics.py` copy: the routine succeeds, `latest_start` is the
maximum of the first timestamps, every output series carries exactly the
input entries with timestamp at or after `latest_start` (and is
non-empty), every output series starts at or after `latest_start`, and the
`aligned` flag is `false` exactly when every series already starts at
`latest_start`. -/
theorem alignAnalytics_props (fund_dfs : List RFund)
    (hne : fund_dfs ≠ [])
    (hnonempty : ∀ f ∈ fund_dfs, f.df ≠ [])
    (hsorted : ∀ f ∈ fund_dfs, f.df.Pairwise (fun a b => a.1 < b.1)) :
    ∃ out stats, alignAnalytics fund_dfs = some (out, some stats) ∧
      stats.latest_start = latestStart fund_dfs ∧
      ((∃ f ∈ fund_dfs, stats.latest_start = firstTs f) ∧
       ∀ f ∈ fund_dfs, firstTs f ≤ stats.latest_start) ∧
      (∀ g ∈ out, g.df ≠ [] ∧ ∃ f ∈ fund_dfs,
        g.df.map Prod.fst = (f.df.map Prod.fst).filter
          (fun t => decide (stats.latest_start ≤ t))) ∧
      (∀ g ∈ out, ∀ t ∈ (g.df.map Prod.fst).head?, stats.latest_start ≤ t) ∧
      (stats.aligned = false ↔
        ∀ f ∈ fund_dfs, firstTs f = stats.latest_start) := by
  have hE : fund_dfs.isEmpty = false := by
    simpa [List.isEmpty_iff] using hne
  have hTIE : (timeInfo fund_dfs).isEmpty = false := by
    simpa [List.isEmpty_iff] using timeInfo_ne_nil hne hnonempty
  by_cases hneeds : needsAlignment fund_dfs = true
  · have haligned : ∀ a ∈ alignTrunc (latestStart fund_dfs) fund_dfs,
        a.df ≠ [] := by
      intro a ha
      obtain ⟨f, _, htf⟩ := List.mem_filterMap.mp ha
      exact (truncFund_inv htf).2.1
    obtain ⟨r, hr⟩ := rebaseAll_some haligned
    have heq : alignAnalytics fund_dfs =
        some (r, some ⟨true, latestStart fund_dfs, earliestEnd fund_dfs,
          fund_dfs.length, r.length⟩) := by
      simp [alignAnalytics, hE, hTIE, hneeds, hr]
    have hmemchar : ∀ g ∈ r, g.df ≠ [] ∧ ∃ f ∈ fund_dfs,
        g.df.map Prod.fst = (f.df.map Prod.fst).filter
          (fun t => decide (latestStart fund_dfs ≤ t)) := by
      intro g hg
      obtain ⟨a, ha, hstep⟩ := rebaseAll_mem hr g hg
      obtain ⟨f, hf, htf⟩ := List.mem_filterMap.mp ha
      obtain ⟨hadf, hane, _⟩ := truncFund_inv htf
      obtain ⟨t0, v0, rest, hdf0, hv0, hgdf, _⟩ := rebaseStep_inv hstep
      constructor
      · rw [hgdf, hdf0]; simp
      · refine ⟨f, hf, ?_⟩
        rw [map_fst_rebased hgdf, hadf]
        exact map_fst_filter_comm f.df
          (fun t => decide (latestStart fund_dfs ≤ t))
    refine ⟨r, _, heq, rfl,
      ⟨latestStart_attained hne hnonempty hsorted,
       latestStart_ub hne hnonempty hsorted⟩, hmemchar, ?_, ?_⟩
    · intro g hg t ht
      obtain ⟨_, f, _, hchar⟩ := hmemchar g hg
      rw [hchar] at ht
      have := head_filter_pred (Option.mem_def.mp ht)
      simpa using this
    · constructor
      · intro h; cases h
      · intro hall
        have := (needsAlignment_false_iff hne hnonempty hsorted).mpr hall
        rw [this] at hneeds; cases hneeds
  · have hnf : needsAlignment fund_dfs = false := by
      simpa using hneeds
    have hall : ∀ f ∈ fund_dfs, firstTs f = latestStart fund_dfs :=
      (needsAlignment_false_iff hne hnonempty hsorted).mp hnf
    obtain ⟨r, hr⟩ := rebaseAll_some hnonempty
    have heq : alignAnalytics fund_dfs =
        some (r, some ⟨false, latestStart fund_dfs, earliestEnd fund_dfs,
          fund_dfs.length, r.length⟩) := by
      simp [alignAnalytics, hE, hTIE, hnf, hr]
    have hmemchar : ∀ g ∈ r, g.df ≠ [] ∧ ∃ f ∈ fund_dfs,
        g.df.map Prod.fst = (f.df.map Prod.fst).filter
          (fun t => decide (latestStart fund_dfs ≤ t)) := by
      intro g hg
      obtain ⟨f, hf, hstep⟩ := rebaseAll_mem hr g hg
      obtain ⟨t0, v0, rest, hdf0, hv0, hgdf, _⟩ := rebaseStep_inv hstep
      constructor
      · rw [hgdf, hdf0]; simp
      · refine ⟨f, hf, ?_⟩
        rw [map_fst_rebased hgdf]
        have hfilter : (f.df.map Prod.fst).filter
            (fun t => decide (latestStart fund_dfs ≤ t)) =
            f.df.map Prod.fst := by
          rw [List.filter_eq_self]
          intro t htmem
          obtain ⟨e, he, rfl⟩ := List.mem_map.mp htmem
          have := firstTs_le_all (hsorted f hf) e he
          rw [hall f hf] at this
          simpa using this
        rw [hfilter]
    refine ⟨r, _, heq, rfl,
      ⟨latestStart_attained hne hnonempty hsorted,
       latestStart_ub hne hnonempty hsorted⟩, hmemchar, ?_, ?_⟩
    · intro g hg t ht
      obtain ⟨_, f, _, hchar⟩ := hmemchar g hg
      rw [hchar] at ht
      have := head_filter_pred (Option.mem_def.mp ht)
      simpa using this
    · exact ⟨fun _ => hall, fun _ => rfl⟩

/-- alignOverlay_props: the same alignment contract proved for the
`overlay.py` copy — the truncation, latest-start computation and `aligned`
flag coincide with the analytics copy (only the rebasing differs). -/
theorem alignOverlay_props (fund_dfs : List RFund)
    (hne : fund_dfs ≠ [])
    (hnonempty : ∀ f ∈ fund_dfs, f.df ≠ [])
    (hsorted : ∀ f ∈ fund_dfs, f.df.Pairwise (fun a b => a.1 < b.1)) :
    ∃ out stats, alignOverlay fund_dfs = (out, some stats) ∧
      stats.latest_start = latestStart fund_dfs ∧
      ((∃ f ∈ fund_dfs, stats.latest_start = firstTs f) ∧
       ∀ f ∈ fund_dfs, firstTs f ≤ stats.latest_start) ∧
      (∀ g ∈ out, g.df ≠ [] ∧ ∃ f ∈ fund_dfs,
        g.df.map Prod.fst = (f.df.map Prod.fst).filter
          (fun t => decide (stats.latest_start ≤ t))) ∧
      (∀ g ∈ out, ∀ t ∈ (g.df.map Prod.fst).head?, stats.latest_start ≤ t) ∧
      (stats.aligned = false ↔
        ∀ f ∈ fund_dfs, firstTs f = stats.latest_start) := by
  have hE : fund_dfs.isEmpty = false := by
    simpa [List.isEmpty_iff] using hne
  have hTIE : (timeInfo fund_dfs).isEmpty = false := by
    simpa [List.isEmpty_iff] using timeInfo_ne_nil hne hnonempty
  by_cases hneeds : needsAlignment fund_dfs = true
  · have heq : alignOverlay fund_dfs =
        (fund_dfs.filterMap (truncRebaseFund (latestStart fund_dfs)),
         some ⟨true, latestStart fund_dfs, earliestEnd fund_dfs,
           fund_dfs.length,
           (fund_dfs.filterMap (truncRebaseFund (latestStart fund_dfs))).length⟩) := by
      simp [alignOverlay, hE, hTIE, hneeds]
    have hmemchar : ∀ g ∈ fund_dfs.filterMap
        (truncRebaseFund (latestStart fund_dfs)),
        g.df ≠ [] ∧ ∃ f ∈ fund_dfs,
          g.df.map Prod.fst = (f.df.map Prod.fst).filter
            (fun t => decide (latestStart fund_dfs ≤ t)) := by
      intro g hg
      obtain ⟨f, hf, htf⟩ := List.mem_filterMap.mp hg
      obtain ⟨adf, hadf, hane, _, hdi⟩ := truncRebaseFund_inv htf
      have hfst : g.df.map Prod.fst = adf.map Prod.fst := by
        rcases hdi with ⟨_, hgdf⟩ | ⟨_, hgdf⟩
        · rw [hgdf, List.map_map]
          exact List.map_congr_left (fun e _ => rfl)
        · rw [hgdf]
      constructor
      · intro hgnil
        rw [hgnil] at hfst
        exact hane (by simpa using hfst.symm)
      · refine ⟨f, hf, ?_⟩
        rw [hfst, hadf]
        exact map_fst_filter_comm f.df
          (fun t => decide (latestStart fund_dfs ≤ t))
    refine ⟨_, _, heq, rfl,
      ⟨latestStart_attained hne hnonempty hsorted,
       latestStart_ub hne hnonempty hsorted⟩, hmemchar, ?_, ?_⟩
    · intro g hg t ht
      obtain ⟨_, f, _, hchar⟩ := hmemchar g hg
      rw [hchar] at ht
      have := head_filter_pred (Option.mem_def.mp ht)
      simpa using this
    · constructor
      · intro h; cases h
      · intro hall
        have := (needsAlignment_false_iff hne hnonempty hsorted).mpr hall
        rw [this] at hneeds; cases hneeds
  · have hnf : needsAlignment fund_dfs = false := by
      simpa using hneeds
    have hall : ∀ f ∈ fund_dfs, firstTs f = latestStart fund_dfs :=
      (needsAlignment_false_iff hne hnonempty hsorted).mp hnf
    have heq : alignOverlay fund_dfs =
        (fund_dfs, some ⟨false, latestStart fund_dfs, earliestEnd fund_dfs,
          fund_dfs.length, fund_dfs.length⟩) := by
      simp [alignOverlay, hE, hTIE, hnf]
    have hmemchar : ∀ g ∈ fund_dfs, g.df ≠ [] ∧ ∃ f ∈ fund_dfs,
        g.df.map Prod.fst = (f.df.map Prod.fst).filter
          (fun t => decide (latestStart fund_dfs ≤ t)) := by
      intro g hg
      refine ⟨hnonempty g hg, g, hg, ?_⟩
      have hfilter : (g.df.map Prod.fst).filter
          (fun t => decide (latestStart fund_dfs ≤ t)) =
          g.df.map Prod.fst := by
        rw [List.filter_eq_self]
        intro t htmem
        obtain ⟨e, he, rfl⟩ := List.mem_map.mp htmem
        have := firstTs_le_all (hsorted g hg) e he
        rw [hall g hg] at this
        simpa using this
      rw [hfilter]
    refine ⟨_, _, heq, rfl,
      ⟨latestStart_attained hne hnonempty hsorted,
       latestStart_ub hne hnonempty hsorted⟩, hmemchar, ?_, ?_⟩
    · intro g hg t ht
      obtain ⟨_, f, _, hchar⟩ := hmemchar g hg
      rw [hchar] at ht
      have := head_filter_pred (Option.mem_def.mp ht)
      simpa using this
    · exact ⟨fun _ => hall, fun _ => rfl⟩

theorem timeInfo_nil_all_empty {l : List RFund} (h : timeInfo l = []) :
    ∀ f ∈ l, f.df = [] := by
  intro f hf
  have hnone := List.filterMap_eq_nil_iff.mp h f hf
  by_contra hne
  rw [if_neg (by simpa [List.isEmpty_iff] using hne)] at hnone
  cases hnone

/-- alignAnalytics_head_one: whenever the analytics copy returns, every
output series has first retained value exactly 1 — rebasing always runs
and zero-base funds are dropped. -/
theorem alignAnalytics_head_one {fund_dfs out : List RFund}
    {ts : Option TimeStats}
    (h : alignAnalytics fund_dfs = some (out, ts)) :
    ∀ g ∈ out, ∀ t v, g.df.head? = some (t, v) → v = 1 := by
  intro g hg t v hv
  simp only [alignAnalytics] at h
  split at h
  · next hE =>
    injection h with h2
    have hout : fund_dfs = out := congrArg Prod.fst h2
    rw [← hout] at hg
    rw [List.isEmpty_iff.mp hE] at hg
    cases hg
  · split at h
    · next hTI =>
      injection h with h2
      have hout : fund_dfs = out := congrArg Prod.fst h2
      rw [← hout] at hg
      have hgdf : g.df = [] :=
        timeInfo_nil_all_empty (List.isEmpty_iff.mp hTI) g hg
      rw [hgdf] at hv
      cases hv
    · split at h
      · match hr : rebaseAll (alignTrunc (latestStart fund_dfs) fund_dfs) with
        | none => rw [hr] at h; cases h
        | some r =>
          rw [hr] at h
          simp only [Option.map_some', Option.some_inj] at h
          have hout : r = out := congrArg Prod.fst h
          rw [← hout] at hg
          obtain ⟨a, _, hstep⟩ := rebaseAll_mem hr g hg
          exact rebased_head_one hstep t v hv
      · match hr : rebaseAll fund_dfs with
        | none => rw [hr] at h; cases h
        | some r =>
          rw [hr] at h
          simp only [Option.map_some', Option.some_inj] at h
          have hout : r = out := congrArg Prod.fst h
          rw [← hout] at hg
          obtain ⟨a, _, hstep⟩ := rebaseAll_mem hr g hg
          exact rebased_head_one hstep t v hv

/-- alignOverlay_aligned_dichotomy: in the overlay copy's aligned branch,
every output series either was rebased (first value 1) or had a zero first
retained value and was kept with its original values. -/
theorem alignOverlay_aligned_dichotomy {fund_dfs out : List RFund}
    {stats : TimeStats}
    (h : alignOverlay fund_dfs = (out, some stats))
    (ha : stats.aligned = true) :
    ∀ g ∈ out, ∀ t v, g.df.head? = some (t, v) → v = 1 ∨ v = 0 := by
  intro g hg t v hv
  simp only [alignOverlay] at h
  split at h
  · injection h with h1 h2
    cases h2
  · split at h
    · injection h with h1 h2
      cases h2
    · split at h
      · injection h with h1 h2
        rw [← h1] at hg
        obtain ⟨f, hf, htf⟩ := List.mem_filterMap.mp hg
        obtain ⟨adf, hadf, hane, _, hdi⟩ := truncRebaseFund_inv htf
        match hadf2 : adf, hadf, hane, hdi with
        | [], _, hane, _ => exact absurd rfl hane
        | e0 :: rest, hadf, hane, hdi =>
          rcases hdi with ⟨hnz, hgdf⟩ | ⟨hz, hgdf⟩
          · left
            rw [hgdf] at hv
            simp only [List.map_cons, List.head?_cons, Option.some_inj] at hv
            have hv2 : v = e0.2 / ((e0 :: rest).headD (0, 0)).2 :=
              (congrArg Prod.snd hv).symm
            simp only [List.headD_cons] at hv2 hnz
            rw [hv2]
            exact div_self hnz
          · right
            rw [hgdf] at hv
            simp only [List.head?_cons, Option.some_inj] at hv
            have hv2 : v = e0.2 := (congrArg Prod.snd hv).symm
            simp only [List.headD_cons] at hz
            rw [hv2, hz]
      · injection h with h1 h2
        rw [← Option.some_inj.mp h2] at ha
        simp at ha

/-- alignOverlay_noop_id: the overlay copy's no-op branch returns the
input funds unchanged — no rebasing happens there. -/
theorem alignOverlay_noop_id {fund_dfs out : List RFund} {stats : TimeStats}
    (h : alignOverlay fund_dfs = (out, some stats))
    (ha : stats.aligned = false) :
    out = fund_dfs := by
  simp only [alignOverlay] at h
  split at h
  · injection h with h1 h2; cases h2
  · split at h
    · injection h with h1 h2; cases h2
    · split at h
      · injection h with h1 h2
        rw [← Option.some_inj.mp h2] at ha
        simp at ha
      · injection h with h1 h2
        exact h1.symm

/-! Claim theorems. -/

/-- C1: for every non-empty list of fund series with non-empty, strictly
ascending frames, both copies of `align_time_series_data` report a
`latest_start` equal to the maximum of the series' first timestamps,
retain in every surviving series exactly the entries with timestamp at or
after `latest_start` (series that become empty are dropped, so every
surviving series is non-empty and its first timestamp is at or after
`latest_start`), and set the `aligned` flag to `false` exactly when every
series already starts at `latest_start`. -/
theorem c1_alignment_correct (fund_dfs : List RFund)
    (hne : fund_dfs ≠ [])
    (hnonempty : ∀ f ∈ fund_dfs, f.df ≠ [])
    (hsorted : ∀ f ∈ fund_dfs, f.df.Pairwise (fun a b => a.1 < b.1)) :
    (∃ out stats, alignAnalytics fund_dfs = some (out, some stats) ∧
      stats.latest_start = latestStart fund_dfs ∧
      ((∃ f ∈ fund_dfs, stats.latest_start = firstTs f) ∧
       ∀ f ∈ fund_dfs, firstTs f ≤ stats.latest_start) ∧
      (∀ g ∈ out, g.df ≠ [] ∧ ∃ f ∈ fund_dfs,
        g.df.map Prod.fst = (f.df.map Prod.fst).filter
          (fun t => decide (stats.latest_start ≤ t))) ∧
      (∀ g ∈ out, ∀ t ∈ (g.df.map Prod.fst).head?, stats.latest_start ≤ t) ∧
      (stats.aligned = false ↔
        ∀ f ∈ fund_dfs, firstTs f = stats.latest_start)) ∧
    (∃ out stats, alignOverlay fund_dfs = (out, some stats) ∧
      stats.latest_start = latestStart fund_dfs ∧
      ((∃ f ∈ fund_dfs, stats.latest_start = firstTs f) ∧
       ∀ f ∈ fund_dfs, firstTs f ≤ stats.latest_start) ∧
      (∀ g ∈ out, g.df ≠ [] ∧ ∃ f ∈ fund_dfs,
        g.df.map Prod.fst = (f.df.map Prod.fst).filter
          (fun t => decide (stats.latest_start ≤ t))) ∧
      (∀ g ∈ out, ∀ t ∈ (g.df.map Prod.fst).head?, stats.latest_start ≤ t) ∧
      (stats.aligned = false ↔
        ∀ f ∈ fund_dfs, firstTs f = stats.latest_start)) :=
  ⟨alignAnalytics_props fund_dfs hne hnonempty hsorted,
   alignOverlay_props fund_dfs hne hnonempty hsorted⟩

/-- C1 (witness): two funds starting on day 0 and day 1 align to
`latest_start = 1`. -/
theorem c1_alignment_correct_witness :
    ∃ out stats,
      alignAnalytics [⟨[(0, 1), (1, 2)], 50⟩, ⟨[(1, 3), (2, 4)], 50⟩] =
        some (out, some stats) ∧ stats.latest_start = 1 := by
  obtain ⟨⟨out, stats, heq, hls, _⟩, _⟩ :=
    c1_alignment_correct [⟨[(0, 1), (1, 2)], 50⟩, ⟨[(1, 3), (2, 4)], 50⟩]
      (by decide) (by decide) (by decide)
  refine ⟨out, stats, heq, ?_⟩
  rw [hls]
  decide

/-- C2 (counterexample): in the `overlay.py` copy of
`align_time_series_data`, a fund whose first retained value is exactly 0
is not dropped: it survives the aligned branch with its original values,
so its first retained value is 0, not 1. -/
theorem c2_zero_base_counterexample :
    alignOverlay [⟨[(0, 5), (1, 0), (2, 3)], 50⟩, ⟨[(1, 0), (2, 3)], 50⟩] =
      ([⟨[(1, 0), (2, 3)], 50⟩, ⟨[(1, 0), (2, 3)], 50⟩],
       some ⟨true, 1, 2, 2, 2⟩) ∧
    (⟨[(1, 0), (2, 3)], 50⟩ : RFund).df.head? = some (1, 0) ∧
    (0 : ℚ) ≠ 1 := by decide

/-- C2 (amended): in the `modules/analytics.py` copy, every series that
survives the alignment-plus-rebase step has value exactly 1 at its first
retained timestamp and any zero-base series is dropped; in the
`overlay.py` copy's aligned branch a surviving series has first retained
value 1 when rebased, or 0 when its zero base made the rebasing skip — the
zero-base series is retained with its original values, not dropped. -/
theorem c2_rebase_amended :
    (∀ fund_dfs out ts, alignAnalytics fund_dfs = some (out, ts) →
      ∀ g ∈ out, ∀ t v, g.df.head? = some (t, v) → v = 1) ∧
    (∀ fund_dfs out stats, alignOverlay fund_dfs = (out, some stats) →
      stats.aligned = true →
      ∀ g ∈ out, ∀ t v, g.df.head? = some (t, v) → v = 1 ∨ v = 0) :=
  ⟨fun _ _ _ h => alignAnalytics_head_one h,
   fun _ _ _ h ha => alignOverlay_aligned_dichotomy h ha⟩

/-- C2 (witness): the analytics copy rebases the single fund
`[(0, 2), (1, 4)]` to first value 1. -/
theorem c2_rebase_amended_witness :
    alignAnalytics [⟨[(0, 2), (1, 4)], 100⟩] =
      some ([⟨[(0, 1), (1, 2)], 100⟩], some ⟨false, 0, 1, 1, 1⟩) ∧
    (1 : ℚ) = 1 := by
  have hre : rebaseAll [⟨[(0, 2), (1, 4)], 100⟩] =
      some [⟨[(0, 1), (1, 2)], 100⟩] := by
    norm_num [rebaseAll, rebaseStep]
  have key : alignAnalytics [⟨[(0, 2), (1, 4)], 100⟩] =
      some ([⟨[(0, 1), (1, 2)], 100⟩], some ⟨false, 0, 1, 1, 1⟩) := by
    simp only [alignAnalytics]
    rw [if_neg (by decide), if_neg (by decide), if_neg (by decide), hre]
    rw [show latestStart [⟨[(0, 2), (1, 4)], 100⟩] = 0 from by decide,
        show earliestEnd [⟨[(0, 2), (1, 4)], 100⟩] = 1 from by decide]
    rfl
  exact ⟨key,
    c2_rebase_amended.1 [⟨[(0, 2), (1, 4)], 100⟩] [⟨[(0, 1), (1, 2)], 100⟩]
      (some ⟨false, 0, 1, 1, 1⟩) key ⟨[(0, 1), (1, 2)], 100⟩
      (by decide) 0 1 (by decide)⟩

/-- C6 (counterexample): the `overlay.py` copy's no-op branch does not
rebase: a single fund starting at value 2 comes back unchanged with the
`aligned` flag false, its first retained value 2 rather than 1, and it is
not dropped. -/
theorem c6_noop_counterexample :
    alignOverlay [⟨[(0, 2), (1, 4)], 100⟩] =
      ([⟨[(0, 2), (1, 4)], 100⟩], some ⟨false, 0, 1, 1, 1⟩) ∧
    (2 : ℚ) ≠ 1 := by decide

/-- C6 (amended): rebasing after a no-op alignment happens only in the
`modules/analytics.py` copy — there, whenever the `aligned` flag comes out
false every output series still has first retained value 1 or was dropped
for a zero base; the `overlay.py` copy instead returns the input series
unchanged whenever the `aligned` flag is false. -/
theorem c6_noop_amended :
    (∀ fund_dfs out stats, alignAnalytics fund_dfs = some (out, some stats) →
      stats.aligned = false →
      ∀ g ∈ out, ∀ t v, g.df.head? = some (t, v) → v = 1) ∧
    (∀ fund_dfs out stats, alignOverlay fund_dfs = (out, some stats) →
      stats.aligned = false → out = fund_dfs) :=
  ⟨fun _ _ _ h _ => alignAnalytics_head_one h,
   fun _ _ _ h ha => alignOverlay_noop_id h ha⟩

/-- C6 (witness): the analytics copy rebases `[(5, 3), (6, 6)]` to first
value 1 although its alignment was a no-op. -/
theorem c6_noop_amended_witness :
    alignAnalytics [⟨[(5, 3), (6, 6)], 40⟩] =
      some ([⟨[(5, 1), (6, 2)], 40⟩], some ⟨false, 5, 6, 1, 1⟩) ∧
    (1 : ℚ) = 1 := by
  have hre : rebaseAll [⟨[(5, 3), (6, 6)], 40⟩] =
      some [⟨[(5, 1), (6, 2)], 40⟩] := by
    norm_num [rebaseAll, rebaseStep]
  have key : alignAnalytics [⟨[(5, 3), (6, 6)], 40⟩] =
      some ([⟨[(5, 1), (6, 2)], 40⟩], some ⟨false, 5, 6, 1, 1⟩) := by
    simp only [alignAnalytics]
    rw [if_neg (by decide), if_neg (by decide), if_neg (by decide), hre]
    rw [show latestStart [⟨[(5, 3), (6, 6)], 40⟩] = 5 from by decide,
        show earliestEnd [⟨[(5, 3), (6, 6)], 40⟩] = 6 from by decide]
    rfl
  exact ⟨key,
    c6_noop_amended.1 [⟨[(5, 3), (6, 6)], 40⟩] [⟨[(5, 1), (6, 2)], 40⟩]
      ⟨false, 5, 6, 1, 1⟩ key (by decide) ⟨[(5, 1), (6, 2)], 40⟩
      (by decide) 5 1 (by decide)⟩

/-- C3: for every non-empty set of rebased aligned series with strictly
ascending frames whose shares sum to exactly 100 and which all start with
a defined value 1 at the common first timestamp, the aggregator's
portfolio NAV — the sum over funds of value times share divided by 100 —
equals 1 at that first aggregated timestamp. -/
theorem c3_weighted_sum (funds : List OFund) (t0 : ℤ)
    (hne : funds ≠ [])
    (hsorted : ∀ f ∈ funds, f.df.Pairwise (fun a b => a.1 < b.1))
    (hhead : ∀ f ∈ funds, f.df.head? = some (t0, some 1))
    (hshares : (funds.map OFund.share).sum = 100) :
    ∃ nav, aggregateNav funds = some nav ∧ nav.head? = some (t0, 1) := by
  have hmem_t0 : t0 ∈ allTs funds := by
    obtain ⟨f0, hf0⟩ := List.exists_mem_of_ne_nil funds hne
    have hm : (t0, some (1 : ℚ)) ∈ f0.df := List.mem_of_mem_head? (hhead f0 hf0)
    exact List.mem_flatMap.mpr ⟨f0, hf0, List.mem_map_of_mem Prod.fst hm⟩
  have hge : ∀ a ∈ allTs funds, t0 ≤ a := by
    intro a ha
    obtain ⟨f, hf, hma⟩ := List.mem_flatMap.mp ha
    obtain ⟨e, he, rfl⟩ := List.mem_map.mp hma
    match hdf : f.df with
    | [] => rw [hdf] at he; cases he
    | e0 :: rest =>
      have he0 : e0 = (t0, some 1) := by
        have := hhead f hf
        rw [hdf] at this
        simpa using this
      rw [hdf] at he
      rcases List.mem_cons.mp he with rfl | he
      · rw [he0]
      · have hs := hsorted f hf
        rw [hdf] at hs
        have hlt := (List.pairwise_cons.mp hs).1 e he
        rw [he0] at hlt
        exact le_of_lt hlt
  have hallne : allTs funds ≠ [] := fun h => by rw [h] at hmem_t0; cases hmem_t0
  obtain ⟨m, hm, hmemm, hlem⟩ := sortDedup_head_min hallne
  have hm_t0 : m = t0 := le_antisymm (hlem t0 hmem_t0) (hge m hmemm)
  subst hm_t0
  have hfill : ∀ f ∈ funds, allNull f.df = false ∧ filledAt m f.df = some 1 :=
    fun f hf => ⟨allNull_head_false (hhead f hf),
      filledAt_head (hsorted f hf) (hhead f hf)⟩
  have hnav : navAt funds m = 1 := by
    rw [navAt_one hfill, hshares]
    norm_num
  refine ⟨(sortDedup (allTs funds)).map (fun t => (t, navAt funds t)),
    ?_, ?_⟩
  · simp only [aggregateNav]
    rw [if_neg (by simpa [List.isEmpty_iff] using hne), if_neg ?_]
    intro habs
    rw [List.isEmpty_iff, List.map_eq_nil_iff] at habs
    rw [habs] at hm
    cases hm
  · match hidx : sortDedup (allTs funds) with
    | [] => rw [hidx] at hm; cases hm
    | x :: xs =>
      have hx : x = m := by
        rw [hidx] at hm
        simpa using hm
      rw [hx]
      simp [hnav]

/-- C3 (witness): two funds with value 1 on day 0 and shares 60 and 40
aggregate to NAV 1 on day 0. -/
theorem c3_weighted_sum_witness :
    ∃ nav, aggregateNav [⟨[(0, some 1)], 60⟩, ⟨[(0, some 1)], 40⟩] =
      some nav ∧ nav.head? = some (0, 1) :=
  c3_weighted_sum [⟨[(0, some 1)], 60⟩, ⟨[(0, some 1)], 40⟩] 0
    (by decide) (by decide) (by decide) (by norm_num)

/-- C7 (counterexample): a single fund whose column holds no defined value
at all still produces a NAV curve: the union timestamp is not excluded but
kept with NAV 0 (the zero-initialized accumulator), and a curve is
returned rather than none. -/
theorem c7_empty_counterexample :
    (∀ f ∈ [(⟨[(0, none)], 100⟩ : OFund)], allNull f.df = true) ∧
    aggregateNav [⟨[(0, none)], 100⟩] = some [(0, 0)] ∧
    aggregateNav [⟨[(0, none)], 100⟩] ≠ none := by decide

/-- C7 (amended): timestamps at which no fund contributes a defined value
after forward- and backward-filling are not excluded from the NAV curve:
they remain with NAV 0, the initial value of the zero-initialized
accumulator series.  In particular, when no fund contributes at any
timestamp the aggregator returns an all-zero curve over the whole union
index (it returns none only when the union index itself is empty). -/
theorem c7_undefined_rows_amended (funds : List OFund)
    (hne : funds ≠ [])
    (hnull : ∀ f ∈ funds, allNull f.df = true) :
    aggregateNav funds =
      if (sortDedup (allTs funds)).isEmpty then none
      else some ((sortDedup (allTs funds)).map (fun t => (t, (0 : ℚ)))) := by
  have hzero : ∀ t, navAt funds t = 0 := fun _ => navAt_zero hnull
  simp only [aggregateNav]
  rw [if_neg (by simpa [List.isEmpty_iff] using hne)]
  match hidx : sortDedup (allTs funds) with
  | [] => simp
  | x :: xs => simp [hzero]

/-- C7 (witness): a fund with two all-NaN rows yields the all-zero
two-point curve. -/
theorem c7_undefined_rows_amended_witness :
    aggregateNav [⟨[(1, none), (2, none)], 70⟩] = some [(1, 0), (2, 0)] := by
  rw [c7_undefined_rows_amended [⟨[(1, none), (2, none)], 70⟩]
    (by decide) (by decide)]
  decide

/-- qOps: a concrete interpretation of the two abstracted float
operations, used only to evaluate the metrics engine at witness inputs
(no claim depends on the values of these two fields). -/
def qOps : FloatOps := ⟨fun _ => 0, fun _ _ => 0⟩

/-- C8: under the metrics contract's input precondition (all defined
values positive), `calculate_investment_metrics` returns the defined
absent result (None) exactly when the series has fewer than 2 points or
fewer than 2 points after dropping missing values; on every other such
input it returns a metrics record — and, being total, it raises no
exception. -/
theorem c8_insufficient_data (ops : FloatOps) (name : String)
    (nav : List (ℤ × Option ℚ))
    (hpos : ∀ e ∈ nav, ∀ v, e.2 = some v → 0 < v) :
    calcMetrics ops nav name = none ↔
      nav.length < 2 ∨ (dropna nav).length < 2 := by
  simp only [calcMetrics]
  split_ifs with h1 h2 h3
  · exact iff_of_true rfl (Or.inl h1)
  · exact iff_of_true rfl (Or.inr h2)
  · exfalso
    match hcl : dropna nav with
    | [] => rw [hcl] at h2; exact h2 (by norm_num)
    | [e] => rw [hcl] at h2; exact h2 (by norm_num)
    | e1 :: e2 :: rest =>
      have hme1 : (e1.1, some e1.2) ∈ nav :=
        mem_dropna (by rw [hcl]; exact List.mem_cons_self _ _)
      have hp1 : (0 : ℚ) < e1.2 := hpos _ hme1 _ rfl
      rw [hcl] at h3
      simp [pctChange, ne_of_gt hp1] at h3
  · exact iff_of_false (by simp) (by omega)

/-- C8 (witness): a single-point NAV series yields the absent result. -/
theorem c8_insufficient_data_witness :
    calcMetrics qOps [(0, some 1)] "p" = none :=
  (c8_insufficient_data qOps "p" [(0, some 1)]
    (fun e he v hv => by
      simp only [List.mem_singleton] at he
      subst he
      simp only [Option.some_inj] at hv
      rw [← hv]
      norm_num)).mpr (Or.inl (by norm_num))

/-- C9: for every NAV series accepted by the metrics computation whose
values satisfy the contract's positivity precondition, the reported
`max_drawdown` equals (min over rows of nav divided by its running
maximum, minus 1) times 100 — rounded to 2 decimals as the source does —
and is always at most 0; in particular the NAV sequence
`[1.0, 1.2, 0.9, 1.1]` on consecutive days yields `max_drawdown = -25`. -/
theorem c9_max_drawdown :
    (∀ (ops : FloatOps) (name : String) (nav : List (ℤ × Option ℚ)) m,
      calcMetrics ops nav name = some m →
      (∀ e ∈ nav, ∀ v, e.2 = some v → 0 < v) →
      m.max_drawdown =
        roundTo 2 ((listMinQ (cummaxRatios ((dropna nav).map Prod.snd)) - 1)
          * 100) ∧
      m.max_drawdown ≤ 0) ∧
    (∀ ops name, ∃ m,
      calcMetrics ops
        [(0, some 1), (1, some (6 / 5)), (2, some (9 / 10)),
         (3, some (11 / 10))] name = some m ∧
      m.max_drawdown = -25) := by
  constructor
  · intro ops name nav m h hpos
    simp only [calcMetrics] at h
    by_cases h1 : nav.length < 2
    · rw [if_pos h1] at h; cases h
    rw [if_neg h1] at h
    by_cases h2 : (dropna nav).length < 2
    · rw [if_pos h2] at h; cases h
    rw [if_neg h2] at h
    by_cases h3 : (pctChange (dropna nav)).isEmpty = true
    · rw [if_pos h3] at h; cases h
    rw [if_neg h3] at h
    have hmdd : m.max_drawdown =
        roundTo 2 ((listMinQ (cummaxRatios ((dropna nav).map Prod.snd)) - 1)
          * 100) := by
      rw [← Option.some_inj.mp h]
    refine ⟨hmdd, ?_⟩
    rw [hmdd]
    apply roundTo_nonpos
    have hmin : listMinQ (cummaxRatios ((dropna nav).map Prod.snd)) ≤ 1 := by
      match hcl : dropna nav with
      | [] => exact absurd (by rw [hcl]; norm_num) h2
      | e1 :: rest =>
        have hme1 : (e1.1, some e1.2) ∈ nav :=
          mem_dropna (by rw [hcl]; exact List.mem_cons_self _ _)
        have hp1 : (0 : ℚ) < e1.2 := hpos _ hme1 _ rfl
        simp only [List.map_cons, cummaxRatios, cummaxRatioAux]
        calc listMinQ ((e1.2 / max e1.2 e1.2) ::
              cummaxRatioAux (max e1.2 e1.2) (rest.map Prod.snd))
            ≤ e1.2 / max e1.2 e1.2 := by
              simp only [listMinQ]
              exact foldl_min_le_init _
          _ = 1 := by rw [max_self, div_self (ne_of_gt hp1)]
    nlinarith [hmin]
  · intro ops name
    have hdr : dropna [((0 : ℤ), some (1 : ℚ)), (1, some (6 / 5)),
        (2, some (9 / 10)), (3, some (11 / 10))] =
        [((0 : ℤ), (1 : ℚ)), (1, 6 / 5), (2, 9 / 10), (3, 11 / 10)] := by
      norm_num [dropna, List.filterMap_cons]
    have hc : ¬((dropna [((0 : ℤ), some (1 : ℚ)), (1, some (6 / 5)),
        (2, some (9 / 10)), (3, some (11 / 10))]).length < 2) := by
      rw [hdr]; norm_num
    have hpc : pctChange [((0 : ℤ), (1 : ℚ)), (1, 6 / 5), (2, 9 / 10),
        (3, 11 / 10)] = [1 / 5, -(1 / 4), 2 / 9] := by
      norm_num [pctChange, List.zip_cons_cons, List.filterMap_cons]
    have hr : ¬((pctChange (dropna [((0 : ℤ), some (1 : ℚ)),
        (1, some (6 / 5)), (2, some (9 / 10)),
        (3, some (11 / 10))])).isEmpty = true) := by
      rw [hdr, hpc]; decide
    obtain ⟨m, hm⟩ : ∃ m, calcMetrics ops
        [((0 : ℤ), some (1 : ℚ)), (1, some (6 / 5)), (2, some (9 / 10)),
         (3, some (11 / 10))] name = some m := by
      simp only [calcMetrics]
      rw [if_neg (by norm_num), if_neg hc, if_neg hr]
      exact ⟨_, rfl⟩
    refine ⟨m, hm, ?_⟩
    simp only [calcMetrics] at hm
    rw [if_neg (by norm_num), if_neg hc, if_neg hr] at hm
    rw [← Option.some_inj.mp hm]
    show roundTo 2 ((listMinQ (cummaxRatios
      ((dropna [((0 : ℤ), some (1 : ℚ)), (1, some (6 / 5)),
        (2, some (9 / 10)), (3, some (11 / 10))]).map Prod.snd)) - 1)
      * 100) = -25
    rw [hdr]
    norm_num [cummaxRatios, cummaxRatioAux, listMinQ, roundTo,
      bround, max_def, min_def]

/-- C9 (witness): the drawdown scenario evaluated through the theorem:
the metrics record exists, its `max_drawdown` is -25 and is at most 0. -/
theorem c9_max_drawdown_witness :
    ∃ m, calcMetrics qOps
      [(0, some 1), (1, some (6 / 5)), (2, some (9 / 10)),
       (3, some (11 / 10))] "p" = some m ∧
      m.max_drawdown = -25 ∧ m.max_drawdown ≤ 0 := by
  obtain ⟨m, hm, hdd⟩ := c9_max_drawdown.2 qOps "p"
  have hpos : ∀ e ∈ [((0 : ℤ), some (1 : ℚ)), (1, some (6 / 5)),
      (2, some (9 / 10)), (3, some (11 / 10))], ∀ v, e.2 = some v → 0 < v := by
    intro e he v hv
    fin_cases he <;>
      (simp only [Option.some_inj] at hv; rw [← hv]; norm_num)
  have hle := (c9_max_drawdown.1 qOps "p" _ m hm hpos).2
  exact ⟨m, hm, hdd, hle⟩

/-- C10: the metrics computation first drops missing values and derives
every reported field from the cleaned series: its result on any input
equals its result on the cleaned series alone, and the reported
`start_date`, `end_date`, `days`, `total_return` and `final_nav` all come
from the cleaned series' first and last retained observations, so leading
or trailing missing observations never contribute. -/
theorem c10_cleaned_fields :
    (∀ (ops : FloatOps) (name : String) (nav : List (ℤ × Option ℚ)),
      calcMetrics ops nav name =
        calcMetrics ops ((dropna nav).map (fun e => (e.1, some e.2))) name) ∧
    (∀ (ops : FloatOps) (name : String) (nav : List (ℤ × Option ℚ)) m,
      calcMetrics ops nav name = some m →
      m.start_date = ((dropna nav).map Prod.fst).headD 0 ∧
      m.end_date = ((dropna nav).map Prod.fst).getLastD 0 ∧
      m.days = ((dropna nav).map Prod.fst).getLastD 0 -
        ((dropna nav).map Prod.fst).headD 0 ∧
      m.total_return = roundTo 2 ((((dropna nav).map Prod.snd).getLastD 0 /
        ((dropna nav).map Prod.snd).headD 0 - 1) * 100) ∧
      m.final_nav = roundTo 4 (((dropna nav).map Prod.snd).getLastD 0)) := by
  constructor
  · intro ops name nav
    have hlift : dropna ((dropna nav).map (fun e => (e.1, some e.2))) =
        dropna nav := dropna_lift _
    simp only [calcMetrics, hlift, List.length_map]
    by_cases h2 : (dropna nav).length < 2
    · simp [h2]
    · have hA : ¬(nav.length < 2) :=
        fun hA => h2 (lt_of_le_of_lt (List.length_filterMap_le _ _) hA)
      simp only [if_neg hA, if_neg h2]
  · intro ops name nav m h
    simp only [calcMetrics] at h
    by_cases h1 : nav.length < 2
    · rw [if_pos h1] at h; cases h
    rw [if_neg h1] at h
    by_cases h2 : (dropna nav).length < 2
    · rw [if_pos h2] at h; cases h
    rw [if_neg h2] at h
    by_cases h3 : (pctChange (dropna nav)).isEmpty = true
    · rw [if_pos h3] at h; cases h
    rw [if_neg h3] at h
    rw [← Option.some_inj.mp h]
    exact ⟨rfl, rfl, rfl, rfl, rfl⟩

/-- C10 (witness): leading and trailing NaN observations do not change
the metrics result. -/
theorem c10_cleaned_fields_witness :
    calcMetrics qOps [(0, none), (1, some 2), (2, some 4), (3, none)] "p" =
      calcMetrics qOps [(1, some 2), (2, some 4)] "p" := by
  have h := c10_cleaned_fields.1 qOps "p"
    [(0, none), (1, some 2), (2, some 4), (3, none)]
  have hd : (dropna [((0 : ℤ), (none : Option ℚ)), (1, some 2),
      (2, some 4), (3, none)]).map (fun e => (e.1, some e.2)) =
      [((1 : ℤ), some (2 : ℚ)), (2, some 4)] := by
    norm_num [dropna, List.filterMap_cons]
  rw [h, hd]

/-! Claims C4 and C5: the cross-portfolio (global) path. -/

/-- C4 (counterexample): in the global path a fund whose value at the
global start is exactly 0 is retained unrebased rather than dropped: with
fund A = [(0,0),(1,5)] at share 50 and fund B = [(0,1),(1,1)] at share 50,
the global start is 0, A survives `globalNormalize` with its raw values,
and the aggregate [(0,1/2),(1,3)] differs from the aggregate without A,
[(0,1/2),(1,1/2)]. -/
theorem c4_zero_skip_counterexample :
    globalLatestStart [[⟨[(0, some 0), (1, some 5)], 50⟩,
      ⟨[(0, some 1), (1, some 1)], 50⟩]] = some 0 ∧
    globalNormalize 0 [⟨[(0, some 0), (1, some 5)], 50⟩,
      ⟨[(0, some 1), (1, some 1)], 50⟩] =
      [⟨[(0, some 0), (1, some 5)], 50⟩,
       ⟨[(0, some 1), (1, some 1)], 50⟩] ∧
    aggregateNav (globalNormalize 0 [⟨[(0, some 0), (1, some 5)], 50⟩,
      ⟨[(0, some 1), (1, some 1)], 50⟩]) = some [(0, 1 / 2), (1, 3)] ∧
    aggregateNav (globalNormalize 0 [⟨[(0, some 1), (1, some 1)], 50⟩]) =
      some [(0, 1 / 2), (1, 1 / 2)] ∧
    ¬(some [((0 : ℤ), (1 / 2 : ℚ)), (1, 3)] =
      some [((0 : ℤ), (1 / 2 : ℚ)), (1, 1 / 2)]) := by
  have hGN : globalNormalize 0 [⟨[(0, some 0), (1, some 5)], 50⟩,
      ⟨[(0, some 1), (1, some 1)], 50⟩] =
      [⟨[(0, some 0), (1, some 5)], 50⟩,
       ⟨[(0, some 1), (1, some 1)], 50⟩] := by
    norm_num [globalNormalize, globalNormFund, List.filterMap_cons,
      List.filter_cons]
  have hGN2 : globalNormalize 0 [⟨[((0 : ℤ), some (1 : ℚ)),
      (1, some 1)], 50⟩] = [⟨[((0 : ℤ), some (1 : ℚ)), (1, some 1)], 50⟩] := by
    norm_num [globalNormalize, globalNormFund, List.filterMap_cons,
      List.filter_cons]
  refine ⟨by decide, hGN, ?_, ?_, by norm_num⟩
  · rw [hGN]
    norm_num [aggregateNav, allTs, sortDedup, insSorted, navAt, filledAt,
      lastDefinedLe, firstDefinedGt, allNull, List.filter_cons,
      List.filterMap_cons]
  · rw [hGN2]
    norm_num [aggregateNav, allTs, sortDedup, insSorted, navAt, filledAt,
      lastDefinedLe, firstDefinedGt, allNull, List.filter_cons,
      List.filterMap_cons]

/-- C4 (amended): in the cross-portfolio path, a fund whose first
retained value at the global start is exactly 0 is retained unrebased —
the truncated fund, with its original values, stays in the portfolio's
normalized set — rather than being dropped as the per-portfolio analytics
rebasing does. -/
theorem c4_zero_retained_amended (g : ℤ) (funds : List OFund) (f : OFund)
    (hf : f ∈ funds)
    (htr : f.df.filter (fun e => decide (g ≤ e.1)) ≠ [])
    (hz : ((f.df.filter (fun e => decide (g ≤ e.1))).headD (0, none)).2 =
      some 0) :
    (⟨f.df.filter (fun e => decide (g ≤ e.1)), f.share⟩ : OFund) ∈
      globalNormalize g funds := by
  apply List.mem_filterMap.mpr
  refine ⟨f, hf, ?_⟩
  simp only [globalNormFund]
  rw [if_neg (by simpa [List.isEmpty_iff] using htr), hz]
  norm_num

/-- C4 (witness): the zero-base fund `[(1,4),(2,0),(3,7)]` truncated at
global start 2 is retained raw. -/
theorem c4_zero_retained_amended_witness :
    (⟨[((2 : ℤ), some (0 : ℚ)), (3, some 7)], 25⟩ : OFund) ∈
      globalNormalize 2 [⟨[(1, some 4), (2, some 0), (3, some 7)], 25⟩] := by
  have h := c4_zero_retained_amended 2
    [⟨[(1, some 4), (2, some 0), (3, some 7)], 25⟩]
    ⟨[(1, some 4), (2, some 0), (3, some 7)], 25⟩
    (by decide) (by decide) (by decide)
  simpa using h

/-- alignedStart: a portfolio's own aligned start date — the latest of
its funds' first timestamps, as the per-fund alignment of §4.1 computes
it.  Used only to state what the spec asserts about the global path. -/
def alignedStart (funds : List OFund) : ℤ :=
  listMax (funds.map (fun f => listMin (f.df.map Prod.fst)))

/-- globalLatestStartSpec: a second definition following the
specification's words for the global aligner — the maximum over
portfolios with data of each portfolio's own aligned start date — to be
compared against the code's `globalLatestStart`. -/
def globalLatestStartSpec (ps : List (List OFund)) : Option ℤ :=
  let withData := ps.filter (fun p => !p.isEmpty)
  if withData.isEmpty then none
  else some (listMax (withData.map alignedStart))

/-- C5 (counterexample): for a portfolio whose funds start on days 0 and
10 (aligned start 10) next to a portfolio starting on day 5, the code's
global start is 5 — the maximum of the portfolios' raw earliest
timestamps — while the spec's global start (maximum of aligned starts)
is 10. -/
theorem c5_global_start_counterexample :
    globalLatestStart [[⟨[(0, some 1), (1, some 1)], 50⟩,
        ⟨[(10, some 1), (11, some 1)], 50⟩],
      [⟨[(5, some 1), (6, some 1)], 100⟩]] = some 5 ∧
    globalLatestStartSpec [[⟨[(0, some 1), (1, some 1)], 50⟩,
        ⟨[(10, some 1), (11, some 1)], 50⟩],
      [⟨[(5, some 1), (6, some 1)], 100⟩]] = some 10 ∧
    (5 : ℤ) ≠ 10 := by decide

theorem glsStep_some (a : ℤ) (p : List OFund) (hp : p ≠ []) :
    glsStep (some a) p = some (max a (portfolioStart p)) := by
  simp only [glsStep]
  rw [if_neg (by simpa [List.isEmpty_iff] using hp)]
  by_cases h : a < portfolioStart p
  · rw [if_pos h, max_eq_right (le_of_lt h)]
  · rw [if_neg h, max_eq_left (not_lt.mp h)]

theorem gls_foldl_spec (l : List (List OFund)) (a : ℤ)
    (hp : ∀ p ∈ l, p ≠ []) :
    ∃ g, l.foldl glsStep (some a) = some g ∧
      (g = a ∨ ∃ p ∈ l, g = portfolioStart p) ∧ a ≤ g ∧
      ∀ p ∈ l, portfolioStart p ≤ g := by
  induction l generalizing a with
  | nil =>
    exact ⟨a, rfl, Or.inl rfl, le_refl a, by intro p hp'; cases hp'⟩
  | cons p l ih =>
    obtain ⟨g, hg, hor, hle, hub⟩ :=
      ih (max a (portfolioStart p)) (fun q hq => hp q (by simp [hq]))
    refine ⟨g, ?_, ?_, ?_, ?_⟩
    · rw [List.foldl_cons, glsStep_some a p (hp p (by simp))]
      exact hg
    · rcases hor with rfl | ⟨q, hq, hgq⟩
      · rcases max_choice a (portfolioStart p) with hm | hm
        · exact Or.inl hm
        · exact Or.inr ⟨p, by simp, hm⟩
      · exact Or.inr ⟨q, by simp [hq], hgq⟩
    · exact le_trans (le_max_left _ _) hle
    · intro q hq
      rcases List.mem_cons.mp hq with rfl | hq
      · exact le_trans (le_max_right a _) hle
      · exact hub q hq

/-- C5 (amended): the global alignment start equals the maximum, over all
portfolios with data, of each portfolio's own earliest raw timestamp (the
minimum over all of its funds' timestamps) — no per-fund alignment is
applied before the scan. -/
theorem c5_global_start_amended (ps : List (List OFund))
    (hne : ps ≠ [])
    (hp : ∀ p ∈ ps, p ≠ [])
    (hdf : ∀ p ∈ ps, ∀ f ∈ p, f.df ≠ []) :
    ∃ g, globalLatestStart ps = some g ∧
      (∃ p ∈ ps, g = portfolioStart p) ∧
      (∀ p ∈ ps, portfolioStart p ≤ g) ∧
      ∀ p ∈ ps, (∀ f ∈ p, ∀ e ∈ f.df, portfolioStart p ≤ e.1) ∧
        ∃ f ∈ p, ∃ e ∈ f.df, e.1 = portfolioStart p := by
  have hmin : ∀ p ∈ ps, (∀ f ∈ p, ∀ e ∈ f.df, portfolioStart p ≤ e.1) ∧
      ∃ f ∈ p, ∃ e ∈ f.df, e.1 = portfolioStart p := by
    intro p hpp
    have hne' : allTs p ≠ [] := by
      obtain ⟨f0, hf0⟩ := List.exists_mem_of_ne_nil p (hp p hpp)
      obtain ⟨e0, he0⟩ := List.exists_mem_of_ne_nil f0.df (hdf p hpp f0 hf0)
      intro habs
      have hmem : e0.1 ∈ allTs p :=
        List.mem_flatMap.mpr ⟨f0, hf0, List.mem_map_of_mem _ he0⟩
      rw [habs] at hmem
      cases hmem
    obtain ⟨hmem, hlb⟩ := listMin_spec hne'
    constructor
    · intro f hf e he
      exact hlb e.1 (List.mem_flatMap.mpr ⟨f, hf, List.mem_map_of_mem _ he⟩)
    · obtain ⟨f, hf, hts⟩ := List.mem_flatMap.mp hmem
      obtain ⟨e, he, hets⟩ := List.mem_map.mp hts
      exact ⟨f, hf, e, he, hets⟩
  obtain ⟨p0, rest, rfl⟩ := List.exists_cons_of_ne_nil hne
  have h0 : glsStep none p0 = some (portfolioStart p0) := by
    simp only [glsStep]
    rw [if_neg (by simpa [List.isEmpty_iff] using hp p0 (by simp))]
  obtain ⟨g, hg, hor, hle, hub⟩ := gls_foldl_spec rest (portfolioStart p0)
    (fun q hq => hp q (by simp [hq]))
  refine ⟨g, ?_, ?_, ?_, hmin⟩
  · rw [globalLatestStart, List.foldl_cons, h0]
    exact hg
  · rcases hor with rfl | ⟨q, hq, hgq⟩
    · exact ⟨p0, by simp, rfl⟩
    · exact ⟨q, by simp [hq], hgq⟩
  · intro q hq
    rcases List.mem_cons.mp hq with rfl | hq
    · exact hle
    · exact hub q hq

/-- C5 (witness): for two single-fund portfolios starting on days 0 and
7 the global start dominates the first portfolio's raw start. -/
theorem c5_global_start_amended_witness :
    ∃ g, globalLatestStart [[⟨[((0 : ℤ), some (1 : ℚ))], 100⟩],
      [⟨[(7, some 1)], 100⟩]] = some g ∧
      portfolioStart [⟨[((0 : ℤ), some (1 : ℚ))], 100⟩] ≤ g := by
  obtain ⟨g, hg, _, hub, _⟩ := c5_global_start_amended
    [[⟨[((0 : ℤ), some (1 : ℚ))], 100⟩], [⟨[(7, some 1)], 100⟩]]
    (by decide) (by decide) (by decide)
  exact ⟨g, hg, hub _ (by decide)⟩

end Overlay
